import Mathlib

/-!
Verification of a dense feed-forward neural network trained by stochastic
gradient descent (a Jupyter notebook, `Lecture_6_2`-style source).

Shallow embedding conventions:
* a numpy column vector of shape `(n, 1)` is modelled as a `List ℝ` of its
  `n` entries (so the source's trailing `[0]` extraction from a one-entry
  row becomes the identity);
* a numpy matrix is a `List (List ℝ)` of its rows;
* Python exceptions are modelled with `Except NetError`; code that cannot
  raise is total;
* `np.random.randn`, an external library call, is modelled by oracle
  functions supplying the drawn entries.
-/

noncomputable section

namespace DS

abbrev Vec : Type := List ℝ

abbrev Mat : Type := List (List ℝ)

/-- Dot product of two equally long lists (a single entry of a numpy `@`). -/
def dot (v w : Vec) : ℝ := (List.zipWith (fun a b => a * b) v w).sum

/-- Matrix–column-vector product `M @ v`. -/
def matVec (M : Mat) (v : Vec) : Vec := M.map (fun row => dot row v)

/-- Elementwise sum of two column vectors. -/
def vAdd (v w : Vec) : Vec := List.zipWith (fun a b => a + b) v w

/-- Elementwise difference of two column vectors. -/
def vSub (v w : Vec) : Vec := List.zipWith (fun a b => a - b) v w

/-- Elementwise (Hadamard) product of two column vectors, numpy `*`. -/
def vHad (v w : Vec) : Vec := List.zipWith (fun a b => a * b) v w

/-- Scalar times column vector, numpy `alpha * v`. -/
def vSmul (c : ℝ) (v : Vec) : Vec := v.map (fun a => c * a)

/-- Outer product `v @ w.T` of an `(n,1)` and the transpose of a `(k,1)` vector. -/
def outer (v w : Vec) : Mat := v.map (fun a => w.map (fun b => a * b))

/-- `M.T @ v`: transpose of `M` applied to `v`. -/
def matTvec (M : Mat) (v : Vec) : Vec := matVec M.transpose v

/-- Elementwise difference of two matrices. -/
def matSub (M N : Mat) : Mat := List.zipWith vSub M N

/-- Scalar times matrix. -/
def matSmul (c : ℝ) (M : Mat) : Mat := M.map (vSmul c)

/-- Python exceptions that the notebook's code can raise, together with the
error names used by its specification (the latter never arise in the code). -/
inductive NetError where
  | indexError
  | zeroDivisionError
  | emptyDatasetError
  | configurationError
  | shapeMismatchError
deriving DecidableEq

/-- `sigmoid(z) = 1.0/(1.0+np.exp(-z))`, the scalar case; numpy applies it
elementwise, which the embedding writes as `List.map sigmoid`. -/
def sigmoid (z : ℝ) : ℝ := 1.0 / (1.0 + Real.exp (-z))

/-- `d_sigmoid(z) = sigmoid(z)*(1.0 - sigmoid(z))`. -/
def d_sigmoid (z : ℝ) : ℝ := sigmoid z * (1.0 - sigmoid z)

/-- `mse(a, y) = .5*sum((a[i] - y[i])**2 for i in range(10))[0]`.
The sum runs over the hard-coded index range `range(10)`; indexing a vector
of fewer than 10 entries raises `IndexError`. -/
def mse (a y : Vec) : Except NetError ℝ :=
  if 10 ≤ a.length ∧ 10 ≤ y.length then
    .ok (0.5 * ((List.range 10).map (fun i => (a.getD i 0 - y.getD i 0) ^ 2)).sum)
  else .error .indexError

/-- Rectangular matrix of shape `(r, c)` with entry `f i j` at row `i`, column `j`
(the embedding of one `np.random.randn(r, c)` draw scaled entrywise). -/
def mkMat (r c : ℕ) (f : ℕ → ℕ → ℝ) : Mat :=
  (List.range r).map (fun ri => (List.range c).map (fun ci => f ri ci))

/-- `initialize_weights(layers)`: starts from the placeholder entries
`W = [[0.0]]`, `B = [[0.0]]` and, for `i in range(1, len(layers))`, appends
`np.random.randn(layers[i], layers[i-1])*np.sqrt(2/layers[i-1])` to `W` and
`np.random.randn(layers[i], 1)*np.sqrt(2/layers[i-1])` to `B`.  The random
draws of the two calls are supplied by the oracles `wrand` and `brand`
(indexed by layer, row, column).  The Python source performs no validation
of `layers` and cannot raise. -/
def initialize_weights (wrand brand : ℕ → ℕ → ℕ → ℝ) (layers : List ℕ) :
    List Mat × List Vec :=
  ((List.range' 1 (layers.length - 1)).foldl
    (fun W i => W ++ [mkMat (layers.getD i 0) (layers.getD (i - 1) 0)
        (fun r c => wrand i r c * Real.sqrt (2 / (layers.getD (i - 1) 0 : ℝ)))])
    [[[0.0]]],
   (List.range' 1 (layers.length - 1)).foldl
    (fun B i => B ++ [(List.range (layers.getD i 0)).map
        (fun r => brand i r 0 * Real.sqrt (2 / (layers.getD (i - 1) 0 : ℝ)))])
    [[0.0]])

/-- Body of the loop of `forward_pass`: at index `i` it appends
`z = W[i] @ A[i-1] + B[i]` to `Z` and `a = sigmoid(z)` to `A`. -/
def fpStep (W : List Mat) (B : List Vec) (ZA : List Vec × List Vec) (i : ℕ) :
    List Vec × List Vec :=
  let z := vAdd (matVec (W.getD i []) (ZA.2.getD (i - 1) [])) (B.getD i [])
  (ZA.1 ++ [z], ZA.2 ++ [z.map sigmoid])

/-- `forward_pass(W, B, xi)` with `predict_vector=False`: starting from the
placeholder `Z = [[0.0]]` and `A = [xi]`, runs the loop
`for i in range(1, L + 1)` with `L = len(W) - 1` and returns `(Z, A)`. -/
def forward_pass (W : List Mat) (B : List Vec) (xi : Vec) : List Vec × List Vec :=
  (List.range' 1 (W.length - 1)).foldl (fpStep W B) ([[0.0]], [xi])

/-- `forward_pass(W, B, xi, predict_vector=True)`: the same loop, returning
only `A[-1]`. -/
def forward_pass_pv (W : List Mat) (B : List Vec) (xi : Vec) : Vec :=
  (forward_pass W B xi).2.getLastD []

/-- Accumulator loop of `np.argmax` on a flat list: `idx` is the index of the
next element, `best` the first index of the running maximum `bv`; a later
element replaces the running maximum only if strictly greater. -/
def argmaxAux : List ℝ → ℕ → ℕ → ℝ → ℕ
  | [], _, best, _ => best
  | x :: xs, idx, best, bv =>
      if bv < x then argmaxAux xs (idx + 1) idx x else argmaxAux xs (idx + 1) best bv

/-- `np.argmax` on a (flattened) vector: the lowest index of a maximal entry.
numpy raises on an empty array; the claims only apply it to nonempty vectors,
where this total model agrees with it. -/
def argmax : List ℝ → ℕ
  | [] => 0
  | x :: xs => argmaxAux xs 1 0 x

/-- `predict(W, B, xi)`: `_, A = forward_pass(W, B, xi); return np.argmax(A[-1])`. -/
def predict (W : List Mat) (B : List Vec) (xi : Vec) : ℕ :=
  argmax ((forward_pass W B xi).2.getLastD [])

/-- Loop of `MSE(W, B, X, y)`: accumulates `cost += mse(a, yi)` and `m += 1`
over `zip(X, y)`, propagating the `IndexError` that `mse` may raise. -/
def MSEloop (W : List Mat) (B : List Vec) :
    List (Vec × Vec) → ℝ → ℕ → Except NetError (ℝ × ℕ)
  | [], cost, m => .ok (cost, m)
  | p :: rest, cost, m =>
    match mse (forward_pass_pv W B p.1) p.2 with
    | .error e => .error e
    | .ok c => MSEloop W B rest (cost + c) (m + 1)

/-- `MSE(W, B, X, y)`: dataset-average of `mse` over `zip(X, y)`; the final
`cost/m` raises `ZeroDivisionError` when the dataset is empty (`m == 0`). -/
def MSE (W : List Mat) (B : List Vec) (X y : List Vec) : Except NetError ℝ :=
  match MSEloop W B (X.zip y) 0 0 with
  | .error e => .error e
  | .ok cm => if cm.2 = 0 then .error .zeroDivisionError else .ok (cm.1 / (cm.2 : ℝ))

/-- One update of the dict built by `for i in range(L-1, 0, -1)` inside
`DenseNetwork.train`: sets `deltas[i] = (W[i+1].T @ deltas[i+1])*d_sigmoid(Z[i])`. -/
def deltaUpd (W : List Mat) (Z : List Vec) (d : ℕ → Vec) (i : ℕ) : ℕ → Vec :=
  fun j =>
    if j = i then vHad (matTvec (W.getD (i + 1) []) (d (i + 1))) ((Z.getD i []).map d_sigmoid)
    else d j

/-- The loop `for i in range(m, 0, -1)` applying `deltaUpd` at `m, m-1, ..., 1`.
The Python dict is modelled as a total map `ℕ → Vec` (unset keys map to `[]`
and are never read by the code). -/
def deltasDown (W : List Mat) (Z : List Vec) : ℕ → (ℕ → Vec) → (ℕ → Vec)
  | 0, d => d
  | m + 1, d => deltasDown W Z m (deltaUpd W Z d (m + 1))

/-- The complete `deltas` dict of one training step of `DenseNetwork.train`:
`deltas[L] = (A[L] - yi)*d_sigmoid(Z[L])` followed by the descending loop
from `L-1` down to `1`, with `L = len(layers) - 1`. -/
def sgd_deltas (layers : List ℕ) (W : List Mat) (Z A : List Vec) (yi : Vec) :
    ℕ → Vec :=
  let L := layers.length - 1
  deltasDown W Z (L - 1)
    (fun j => if j = L then vHad (vSub (A.getD L []) yi) ((Z.getD L []).map d_sigmoid) else [])

/-- Body of the update loop `for i in range(1, L+1)` of `DenseNetwork.train`:
`self.W[i] -= alpha*deltas[i] @ A[i-1].T` and `self.B[i] -= alpha*deltas[i]`. -/
def updStep (alpha : ℝ) (D : ℕ → Vec) (A : List Vec) (WB : List Mat × List Vec)
    (i : ℕ) : List Mat × List Vec :=
  (WB.1.set i (matSub (WB.1.getD i []) (outer (vSmul alpha (D i)) (A.getD (i - 1) []))),
   WB.2.set i (vSub (WB.2.getD i []) (vSmul alpha (D i))))

/-- One full stochastic gradient step of `DenseNetwork.train` on the pair
`(xi, yi)`: forward pass, `deltas` dict, then the update loop over
`range(1, L+1)`, with `L = len(self.layers) - 1`. -/
def sgd_step (layers : List ℕ) (W : List Mat) (B : List Vec) (xi yi : Vec)
    (alpha : ℝ) : List Mat × List Vec :=
  let ZA := forward_pass W B xi
  let L := layers.length - 1
  let D := sgd_deltas layers W ZA.1 ZA.2 yi
  (List.range' 1 L).foldl (updStep alpha D ZA.2) (W, B)

/-- One epoch of `DenseNetwork.train`: a stochastic gradient step for every
pair in `zip(X_train, y_train)`, in order. -/
def epochPass (layers : List ℕ) (X y : List Vec) (alpha : ℝ)
    (WB : List Mat × List Vec) : List Mat × List Vec :=
  (X.zip y).foldl (fun WB p => sgd_step layers WB.1 WB.2 p.1 p.2 alpha) WB

/-- The epoch loop `for k in range(epochs)` of `DenseNetwork.train`: after each
epoch the dataset `MSE` is appended to the running error list. -/
def trainLoop (layers : List ℕ) (X y : List Vec) (alpha : ℝ) :
    ℕ → List Mat × List Vec × List ℝ → Except NetError (List Mat × List Vec × List ℝ)
  | 0, s => .ok s
  | k + 1, s =>
    let WB := epochPass layers X y alpha (s.1, s.2.1)
    match MSE WB.1 WB.2 X y with
    | .error e => .error e
    | .ok c => trainLoop layers X y alpha k (WB.1, WB.2, s.2.2 ++ [c])

/-- The `DenseNetwork` object: layer topology, weight and bias collections,
and the `errors_` attribute.  In Python `errors_` does not exist until the
first `train` call, which the embedding records as `none`. -/
structure DenseNetwork where
  layers : List ℕ
  W : List Mat
  B : List Vec
  errors_ : Option (List ℝ)

/-- `DenseNetwork.__init__(layers)`: stores the topology and the result of
`initialize_weights(layers)`; it does not create `errors_`.  The Python
defaults are `layers = [784, 60, 60, 10]`. -/
def DenseNetwork.construct (wrand brand : ℕ → ℕ → ℕ → ℝ) (layers : List ℕ) :
    DenseNetwork :=
  let WB := initialize_weights wrand brand layers
  DenseNetwork.mk layers WB.1 WB.2 none

/-- `DenseNetwork.train(X_train, y_train, alpha, epochs)`: assigns
`self.errors_ = [MSE(self.W, self.B, X_train, y_train)]` (overwriting any
previous value), then runs the epoch loop, appending the dataset `MSE` after
each epoch.  The Python defaults are `alpha = 0.046`, `epochs = 4`. -/
def DenseNetwork.train (net : DenseNetwork) (X_train y_train : List Vec)
    (alpha : ℝ) (epochs : ℕ) : Except NetError DenseNetwork :=
  match MSE net.W net.B X_train y_train with
  | .error e => .error e
  | .ok c0 =>
    match trainLoop net.layers X_train y_train alpha epochs (net.W, net.B, [c0]) with
    | .error e => .error e
    | .ok s => .ok (DenseNetwork.mk net.layers s.1 s.2.1 (some s.2.2))

/-- `DenseNetwork.predict(xi)`: `_, A = forward_pass(self.W, self.B, xi)`,
then `np.argmax(A[-1])`. -/
def DenseNetwork.predict (net : DenseNetwork) (xi : Vec) : ℕ :=
  argmax ((forward_pass net.W net.B xi).2.getLastD [])

/-- Shape consistency of weight and bias collections with a topology, as in
the data model: `W[i]` has shape `(layers[i], layers[i-1])` and `B[i]` has
`layers[i]` entries for `i = 1 .. len(layers) - 1`, with the index-0
placeholders present. -/
def consistentShapes (layers : List ℕ) (W : List Mat) (B : List Vec) : Prop :=
  W.length = layers.length ∧ B.length = layers.length ∧
  ∀ i < layers.length, 1 ≤ i →
    (W.getD i []).length = layers.getD i 0 ∧
    (∀ row ∈ W.getD i [], row.length = layers.getD (i - 1) 0) ∧
    (B.getD i []).length = layers.getD i 0

instance (layers : List ℕ) (W : List Mat) (B : List Vec) :
    Decidable (consistentShapes layers W B) := by
  unfold consistentShapes
  infer_instance

/-! ### List helper lemmas -/

lemma getD_append_left {α : Type _} (l l2 : List α) (i : ℕ) (d : α)
    (h : i < l.length) : (l ++ l2).getD i d = l.getD i d := by
  simp [List.getD_eq_getElem?_getD, List.getElem?_append, h]

lemma getD_append_len {α : Type _} (l : List α) (a d : α) :
    (l ++ [a]).getD l.length d = a := by
  simp [List.getD_eq_getElem?_getD, List.getElem?_append_right (le_refl l.length)]

lemma getD_set_self {α : Type _} (l : List α) (i : ℕ) (a d : α)
    (h : i < l.length) : (l.set i a).getD i d = a := by
  simp [List.getD_eq_getElem?_getD, List.getElem?_set_self, h]

lemma getD_set_ne {α : Type _} (l : List α) (i j : ℕ) (a d : α)
    (h : i ≠ j) : (l.set i a).getD j d = l.getD j d := by
  simp [List.getD_eq_getElem?_getD, List.getElem?_set_ne h]

lemma getD_irrel {α : Type _} (l : List α) (i : ℕ) (d d2 : α)
    (h : i < l.length) : l.getD i d = l.getD i d2 := by
  simp [List.getD_eq_getElem?_getD, List.getElem?_eq_getElem h]

lemma getLastD_eq_getD {α : Type _} (l : List α) (d : α) :
    l.getLastD d = l.getD (l.length - 1) d := by
  simp [List.getLastD_eq_getLast?, List.getLast?_eq_getElem?, List.getD_eq_getElem?_getD]

lemma drop_cons_parts {α : Type _} (v : List α) (d : α) (idx : ℕ) (y : α)
    (ys : List α) (h : v.drop idx = y :: ys) :
    idx < v.length ∧ v.getD idx d = y ∧ v.drop (idx + 1) = ys := by
  have hlt : idx < v.length := by
    by_contra hc
    push_neg at hc
    rw [List.drop_eq_nil_iff.mpr hc] at h
    cases h
  refine ⟨hlt, ?_, ?_⟩
  · have h0 := List.getElem?_drop v idx 0
    rw [h] at h0
    simp only [List.getElem?_cons_zero, Nat.add_zero] at h0
    simp [List.getD_eq_getElem?_getD, ← h0]
  · rw [← List.tail_drop, h]
    rfl

lemma foldl_append_map {α : Type _} (f : ℕ → α) :
    ∀ (n s : ℕ) (acc : List α),
      (List.range' s n).foldl (fun acc i => acc ++ [f i]) acc =
        acc ++ (List.range' s n).map f := by
  intro n
  induction n with
  | zero => intro s acc; simp
  | succ n ih =>
    intro s acc
    rw [List.range'_succ]
    simp only [List.foldl_cons, List.map_cons]
    rw [ih]
    simp

lemma getD_range' (n s k : ℕ) (h : k < n) : (List.range' s n).getD k 0 = s + k := by
  have hk : k < (List.range' s n).length := by simpa [List.length_range'] using h
  rw [List.getD_eq_getElem?_getD, List.getElem?_eq_getElem hk, List.getElem_range']
  simp

lemma getD_map_of_lt {α β : Type _} (f : α → β) (l : List α) (k : ℕ) (d : β)
    (d0 : α) (h : k < l.length) : (l.map f).getD k d = f (l.getD k d0) := by
  rw [List.getD_eq_getElem?_getD, List.getD_eq_getElem?_getD, List.getElem?_map,
    List.getElem?_eq_getElem h]
  rfl

lemma list_range_sum (f : ℕ → ℝ) : ∀ n, ((List.range n).map f).sum = ∑ j ∈ Finset.range n, f j := by
  intro n
  induction n with
  | zero => simp
  | succ n ih => rw [List.range_succ, Finset.sum_range_succ]; simp [ih]

/-! ### Forward-pass loop invariant -/

lemma fp_inv (W : List Mat) (B : List Vec) :
    ∀ (n s : ℕ) (Z A : List Vec) (r : List Vec × List Vec),
      Z.length = s → A.length = s → 1 ≤ s →
      r = (List.range' s n).foldl (fpStep W B) (Z, A) →
      (r.1.length = s + n ∧ r.2.length = s + n) ∧
      (∀ j, j < s → r.1.getD j [] = Z.getD j [] ∧ r.2.getD j [] = A.getD j []) ∧
      (∀ i, s ≤ i → i < s + n →
        r.1.getD i [] = vAdd (matVec (W.getD i []) (r.2.getD (i - 1) [])) (B.getD i []) ∧
        r.2.getD i [] = (r.1.getD i []).map sigmoid) := by
  intro n
  induction n with
  | zero =>
    intro s Z A r hZ hA hs hr
    subst hr
    exact ⟨⟨by simpa using hZ, by simpa using hA⟩, fun j _ => ⟨rfl, rfl⟩,
      fun i h1 h2 => absurd h2 (by omega)⟩
  | succ n ih =>
    intro s Z A r hZ hA hs hr
    rw [List.range'_succ] at hr
    simp only [List.foldl_cons] at hr
    set zs := vAdd (matVec (W.getD s []) (A.getD (s - 1) [])) (B.getD s []) with hzs
    have hstep : fpStep W B (Z, A) s = (Z ++ [zs], A ++ [zs.map sigmoid]) := rfl
    rw [hstep] at hr
    have ihh := ih (s + 1) (Z ++ [zs]) (A ++ [zs.map sigmoid]) r
      (by simp [hZ]) (by simp [hA]) (by omega) hr
    obtain ⟨⟨hl1, hl2⟩, hpre, hrec⟩ := ihh
    refine ⟨⟨by omega, by omega⟩, ?_, ?_⟩
    · intro j hj
      obtain ⟨p1, p2⟩ := hpre j (by omega)
      constructor
      · rw [p1, getD_append_left Z [zs] j [] (by rw [hZ]; omega)]
      · rw [p2, getD_append_left A [zs.map sigmoid] j [] (by rw [hA]; omega)]
    · intro i hsi hilt
      rcases Nat.lt_or_ge i (s + 1) with hlt | hge
      · have hieq : i = s := by omega
        subst hieq
        obtain ⟨p1, p2⟩ := hpre i (by omega)
        have e1 : r.1.getD i [] = zs := by
          have h0 : (Z ++ [zs]).getD Z.length [] = zs := getD_append_len Z zs []
          rw [hZ] at h0
          rw [p1]
          exact h0
        have e2 : r.2.getD i [] = zs.map sigmoid := by
          have h0 : (A ++ [zs.map sigmoid]).getD A.length [] = zs.map sigmoid :=
            getD_append_len A (zs.map sigmoid) []
          rw [hA] at h0
          rw [p2]
          exact h0
        obtain ⟨q1, q2⟩ := hpre (i - 1) (by omega)
        have e3 : r.2.getD (i - 1) [] = A.getD (i - 1) [] := by
          rw [q2, getD_append_left A [zs.map sigmoid] (i - 1) [] (by rw [hA]; omega)]
        constructor
        · rw [e1, e3]
        · rw [e2, e1]
      · exact hrec i hge (by omega)

/-- Specification of `forward_pass` in terms of `W` (used with shape
hypotheses that identify `W.length` with `len(layers)`). -/
lemma forward_pass_spec (W : List Mat) (B : List Vec) (xi : Vec)
    (hW : 1 ≤ W.length) (r : List Vec × List Vec) (hr : r = forward_pass W B xi) :
    (r.1.length = W.length ∧ r.2.length = W.length) ∧
    (r.1.getD 0 [] = [0.0] ∧ r.2.getD 0 [] = xi) ∧
    ∀ i, 1 ≤ i → i < W.length →
      r.1.getD i [] = vAdd (matVec (W.getD i []) (r.2.getD (i - 1) [])) (B.getD i []) ∧
      r.2.getD i [] = (r.1.getD i []).map sigmoid := by
  have hsum : 1 + (W.length - 1) = W.length := by omega
  have h := fp_inv W B (W.length - 1) 1 [[0.0]] [xi] r rfl rfl le_rfl hr
  obtain ⟨⟨hl1, hl2⟩, hpre, hrec⟩ := h
  rw [hsum] at hl1 hl2
  refine ⟨⟨hl1, hl2⟩, ?_, ?_⟩
  · obtain ⟨p1, p2⟩ := hpre 0 (by omega)
    exact ⟨p1, p2⟩
  · intro i h1 h2
    exact hrec i h1 (by omega)

/-! ### Backpropagation dict lemmas -/

/-- The descending loop only writes keys `≤ m`: values above `m` are untouched. -/
lemma deltasDown_above (W : List Mat) (Z : List Vec) :
    ∀ (m : ℕ) (d : ℕ → Vec) (j : ℕ), m < j → deltasDown W Z m d j = d j := by
  intro m
  induction m with
  | zero => intro d j _; rfl
  | succ m ih =>
    intro d j hj
    show deltasDown W Z m (deltaUpd W Z d (m + 1)) j = d j
    rw [ih (deltaUpd W Z d (m + 1)) j (by omega)]
    unfold deltaUpd
    rw [if_neg (by omega)]

/-- After the descending loop from `m` to `1`, every key `1 ≤ i ≤ m` holds the
backpropagation recurrence in terms of the key `i+1`. -/
lemma deltasDown_rec (W : List Mat) (Z : List Vec) :
    ∀ (m : ℕ) (d : ℕ → Vec) (i : ℕ), 1 ≤ i → i ≤ m →
      deltasDown W Z m d i =
        vHad (matTvec (W.getD (i + 1) []) (deltasDown W Z m d (i + 1)))
          ((Z.getD i []).map d_sigmoid) := by
  intro m
  induction m with
  | zero => intro d i h1 h2; omega
  | succ m ih =>
    intro d i h1 h2
    rcases Nat.lt_or_ge i (m + 1) with hlt | hge
    · exact ih (deltaUpd W Z d (m + 1)) i h1 (by omega)
    · have hieq : i = m + 1 := by omega
      subst hieq
      show deltasDown W Z m (deltaUpd W Z d (m + 1)) (m + 1) = _
      rw [deltasDown_above W Z m _ (m + 1) (by omega)]
      have h2' : deltasDown W Z (m + 1) d (m + 2) = d (m + 2) :=
        deltasDown_above W Z (m + 1) d (m + 2) (by omega)
      rw [h2']
      unfold deltaUpd
      rw [if_pos rfl]

/-! ### Update-loop invariant -/

lemma upd_inv (alpha : ℝ) (D : ℕ → Vec) (A : List Vec) :
    ∀ (n s : ℕ) (W : List Mat) (B : List Vec) (r : List Mat × List Vec),
      r = (List.range' s n).foldl (updStep alpha D A) (W, B) →
      (r.1.length = W.length ∧ r.2.length = B.length) ∧
      (∀ j, j < s ∨ s + n ≤ j → r.1.getD j [] = W.getD j [] ∧ r.2.getD j [] = B.getD j []) ∧
      (∀ i, s ≤ i → i < s + n → i < W.length → i < B.length →
        r.1.getD i [] = matSub (W.getD i []) (outer (vSmul alpha (D i)) (A.getD (i - 1) [])) ∧
        r.2.getD i [] = vSub (B.getD i []) (vSmul alpha (D i))) := by
  intro n
  induction n with
  | zero =>
    intro s W B r hr
    subst hr
    exact ⟨⟨rfl, rfl⟩, fun j _ => ⟨rfl, rfl⟩, fun i h1 h2 _ _ => absurd h2 (by omega)⟩
  | succ n ih =>
    intro s W B r hr
    rw [List.range'_succ] at hr
    simp only [List.foldl_cons] at hr
    set u1 := matSub (W.getD s []) (outer (vSmul alpha (D s)) (A.getD (s - 1) [])) with hu1
    set u2 := vSub (B.getD s []) (vSmul alpha (D s)) with hu2
    have hstep : updStep alpha D A (W, B) s = (W.set s u1, B.set s u2) := rfl
    rw [hstep] at hr
    have ihh := ih (s + 1) (W.set s u1) (B.set s u2) r hr
    obtain ⟨⟨hl1, hl2⟩, hout, hin⟩ := ihh
    refine ⟨⟨by simpa using hl1, by simpa using hl2⟩, ?_, ?_⟩
    · intro j hj
      have hj' : j < s + 1 ∨ s + 1 + n ≤ j := by omega
      obtain ⟨p1, p2⟩ := hout j hj'
      have hjs : s ≠ j := by omega
      rw [p1, p2, getD_set_ne W s j u1 [] hjs, getD_set_ne B s j u2 [] hjs]
      exact ⟨rfl, rfl⟩
    · intro i hsi hilt hiW hiB
      rcases Nat.lt_or_ge i (s + 1) with hlt | hge
      · have hieq : i = s := by omega
        subst hieq
        obtain ⟨p1, p2⟩ := hout i (Or.inl (by omega))
        rw [p1, p2, getD_set_self W i u1 [] hiW, getD_set_self B i u2 [] hiB]
        exact ⟨rfl, rfl⟩
      · obtain ⟨p1, p2⟩ := hin i hge (by omega) (by simpa using hiW) (by simpa using hiB)
        have his : s ≠ i := by omega
        rw [p1, p2, getD_set_ne W s i u1 [] his, getD_set_ne B s i u2 [] his]
        exact ⟨rfl, rfl⟩

/-- Pulling the scalar out of the code's `alpha*deltas[i] @ A[i-1].T`. -/
lemma outer_vSmul (alpha : ℝ) (v w : Vec) :
    outer (vSmul alpha v) w = matSmul alpha (outer v w) := by
  simp only [outer, vSmul, matSmul, List.map_map]
  apply List.map_congr_left
  intro a _
  simp only [Function.comp_apply, vSmul, List.map_map]
  apply List.map_congr_left
  intro b _
  simp only [Function.comp_apply]
  ring

/-! ### argmax specification -/

lemma argmaxAux_ok (v : Vec) :
    ∀ (ys : List ℝ) (idx best : ℕ) (bv : ℝ),
      v.drop idx = ys → idx ≤ v.length → best < idx → v.getD best 0 = bv →
      (∀ j, j < idx → v.getD j 0 ≤ bv) → (∀ j, j < best → v.getD j 0 < bv) →
      argmaxAux ys idx best bv < v.length ∧
      (∀ j, j < v.length → v.getD j 0 ≤ v.getD (argmaxAux ys idx best bv) 0) ∧
      (∀ j, j < argmaxAux ys idx best bv → v.getD j 0 < v.getD (argmaxAux ys idx best bv) 0) := by
  intro ys
  induction ys with
  | nil =>
    intro idx best bv hdrop hidx hbest hbv hub hstrict
    have hlen : v.length ≤ idx := List.drop_eq_nil_iff.mp hdrop
    simp only [argmaxAux]
    refine ⟨by omega, ?_, ?_⟩
    · intro j hj
      rw [hbv]
      exact hub j (by omega)
    · intro j hj
      rw [hbv]
      exact hstrict j hj
  | cons y ys ih =>
    intro idx best bv hdrop hidx hbest hbv hub hstrict
    obtain ⟨hlt, hy, hdrop'⟩ := drop_cons_parts v 0 idx y ys hdrop
    have hred : argmaxAux (y :: ys) idx best bv =
        if bv < y then argmaxAux ys (idx + 1) idx y else argmaxAux ys (idx + 1) best bv := rfl
    rw [hred]
    by_cases hcmp : bv < y
    · rw [if_pos hcmp]
      exact ih (idx + 1) idx y hdrop' (by omega) (by omega) hy
        (fun j hj => by
          rcases Nat.lt_or_ge j idx with hj' | hj'
          · exact le_of_lt (lt_of_le_of_lt (hub j hj') hcmp)
          · have hje : j = idx := by omega
            subst hje
            rw [hy])
        (fun j hj => lt_of_le_of_lt (hub j hj) hcmp)
    · rw [if_neg hcmp]
      exact ih (idx + 1) best bv hdrop' (by omega) (by omega) hbv
        (fun j hj => by
          rcases Nat.lt_or_ge j idx with hj' | hj'
          · exact hub j hj'
          · have hje : j = idx := by omega
            subst hje
            rw [hy]
            exact le_of_not_lt hcmp)
        hstrict

/-! ### Train loop length lemma -/

lemma trainLoop_len (layers : List ℕ) (X y : List Vec) (alpha : ℝ) :
    ∀ (k : ℕ) (st res : List Mat × List Vec × List ℝ),
      trainLoop layers X y alpha k st = .ok res →
      res.2.2.length = st.2.2.length + k := by
  intro k
  induction k with
  | zero =>
    intro st res h
    cases h
    rfl
  | succ k ih =>
    intro st res h
    unfold trainLoop at h
    dsimp only at h
    split at h
    · simp at h
    · have := ih _ res h
      simp only [List.length_append, List.length_cons, List.length_nil] at this
      omega

/-! ### Small shape lemmas and concrete test vectors -/

lemma length_matVec (M : Mat) (v : Vec) : (matVec M v).length = M.length := by
  simp [matVec]

lemma length_vAdd (v w : Vec) : (vAdd v w).length = min v.length w.length := by
  simp [vAdd]

lemma getD_replicate {α : Type _} (n i : ℕ) (a d : α) (h : i < n) :
    (List.replicate n a).getD i d = a := by
  induction n generalizing i with
  | zero => omega
  | succ n ih =>
    cases i with
    | zero => rfl
    | succ i => exact ih i (by omega)

lemma sum_map_const_range (n : ℕ) (c : ℝ) :
    ((List.range n).map (fun _ => c)).sum = n * c := by
  induction n with
  | zero => simp
  | succ n ih =>
    rw [List.range_succ]
    simp [ih]
    ring

/-- argmax of a nonempty vector: in range, maximal, and first among maximizers. -/
lemma argmax_spec (v : Vec) (h : v ≠ []) :
    argmax v < v.length ∧
    (∀ j, j < v.length → v.getD j 0 ≤ v.getD (argmax v) 0) ∧
    (∀ j, j < argmax v → v.getD j 0 < v.getD (argmax v) 0) := by
  cases v with
  | nil => exact absurd rfl h
  | cons a t =>
    have hred : argmax (a :: t) = argmaxAux t 1 0 a := rfl
    rw [hred]
    exact argmaxAux_ok (a :: t) t 1 0 a rfl
      (by rw [List.length_cons]; omega) (by omega) rfl
      (fun j hj => by
        have hje : j = 0 := by omega
        subst hje
        exact le_refl _)
      (fun j hj => absurd hj (by omega))

/-- A one-transition test topology with zero weights, shared by witnesses. -/
def layersW : List ℕ := [1, 1]

def WW : List Mat := [[[0.0]], [[0.0]]]

def BW : List Vec := [[0.0], [0.0]]

def xW : Vec := [0.0]

def yW : Vec := [0.0]

/-! ### Claim theorems -/

/-- C2: for every weight/bias collection consistent with a topology and input
of length `layers[0]`, the forward pass keeps `A[0]` equal to the input,
satisfies `Z[i] = W[i]·A[i-1] + B[i]` and `A[i] = sigmoid(Z[i])` for
`i = 1..L`, and the final output vector has `layers[L]` entries. -/
theorem c2_forward_pass (layers : List ℕ) (W : List Mat) (B : List Vec) (x : Vec)
    (hcs : consistentShapes layers W B) (hx : x.length = layers.getD 0 0)
    (hlen : 1 ≤ layers.length) :
    (forward_pass W B x).2.getD 0 [] = x ∧
    (forward_pass W B x).1.length = layers.length ∧
    (forward_pass W B x).2.length = layers.length ∧
    (∀ i, 1 ≤ i → i < layers.length →
      (forward_pass W B x).1.getD i [] =
        vAdd (matVec (W.getD i []) ((forward_pass W B x).2.getD (i - 1) [])) (B.getD i []) ∧
      (forward_pass W B x).2.getD i [] = ((forward_pass W B x).1.getD i []).map sigmoid) ∧
    ((forward_pass W B x).2.getLastD []).length = layers.getD (layers.length - 1) 0 := by
  obtain ⟨hWlen, hBlen, hsh⟩ := hcs
  have hW1 : 1 ≤ W.length := by omega
  obtain ⟨⟨hl1, hl2⟩, ⟨hz0, ha0⟩, hrec⟩ :=
    forward_pass_spec W B x hW1 (forward_pass W B x) rfl
  refine ⟨ha0, by omega, by omega, fun i h1 h2 => hrec i h1 (by omega), ?_⟩
  rw [getLastD_eq_getD, hl2, hWlen]
  rcases Nat.eq_or_lt_of_le hlen with heq | hgt
  · have h0 : layers.length - 1 = 0 := by omega
    rw [h0, ha0]
    exact hx
  · have hL1 : 1 ≤ layers.length - 1 := by omega
    obtain ⟨hzeq, haeq⟩ := hrec (layers.length - 1) hL1 (by omega)
    rw [haeq, List.length_map, hzeq, length_vAdd, length_matVec]
    obtain ⟨hWsh, hWrow, hBsh⟩ := hsh (layers.length - 1) (by omega) hL1
    rw [hWsh, hBsh]
    simp

/-- Witness for C2 at the concrete zero network on topology `[1, 1]`. -/
theorem c2_forward_pass_witness :
    (consistentShapes layersW WW BW ∧ (xW : Vec).length = layersW.getD 0 0 ∧
      1 ≤ layersW.length) ∧
    ((forward_pass WW BW xW).2.getD 0 [] = xW ∧
     (forward_pass WW BW xW).1.length = layersW.length ∧
     (forward_pass WW BW xW).2.length = layersW.length ∧
     (∀ i, 1 ≤ i → i < layersW.length →
       (forward_pass WW BW xW).1.getD i [] =
         vAdd (matVec (WW.getD i []) ((forward_pass WW BW xW).2.getD (i - 1) []))
           (BW.getD i []) ∧
       (forward_pass WW BW xW).2.getD i [] =
         ((forward_pass WW BW xW).1.getD i []).map sigmoid) ∧
     ((forward_pass WW BW xW).2.getLastD []).length = layersW.getD (layersW.length - 1) 0) :=
  ⟨⟨by decide, by decide, by decide⟩,
    c2_forward_pass layersW WW BW xW (by decide) (by decide) (by decide)⟩

/-- C7: `predict` returns the index of the maximum entry of the final
activation vector; if several entries equal the maximum, the lowest such index
is returned (every earlier entry is strictly smaller). -/
theorem c7_predict_argmax (W : List Mat) (B : List Vec) (x : Vec)
    (h : (forward_pass W B x).2.getLastD [] ≠ []) :
    predict W B x < ((forward_pass W B x).2.getLastD []).length ∧
    (∀ j, j < ((forward_pass W B x).2.getLastD []).length →
      ((forward_pass W B x).2.getLastD []).getD j 0 ≤
        ((forward_pass W B x).2.getLastD []).getD (predict W B x) 0) ∧
    (∀ j, j < predict W B x →
      ((forward_pass W B x).2.getLastD []).getD j 0 <
        ((forward_pass W B x).2.getLastD []).getD (predict W B x) 0) :=
  argmax_spec ((forward_pass W B x).2.getLastD []) h

/-- Witness for C7 at the concrete zero network (output vector `[0.0]`). -/
theorem c7_predict_argmax_witness :
    (forward_pass WW BW xW).2.getLastD [] ≠ [] ∧
    (predict WW BW xW < ((forward_pass WW BW xW).2.getLastD []).length ∧
     (∀ j, j < ((forward_pass WW BW xW).2.getLastD []).length →
       ((forward_pass WW BW xW).2.getLastD []).getD j 0 ≤
         ((forward_pass WW BW xW).2.getLastD []).getD (predict WW BW xW) 0) ∧
     (∀ j, j < predict WW BW xW →
       ((forward_pass WW BW xW).2.getLastD []).getD j 0 <
         ((forward_pass WW BW xW).2.getLastD []).getD (predict WW BW xW) 0)) :=
  ⟨by simp [forward_pass, fpStep, WW, BW, xW, vAdd, matVec, dot],
    c7_predict_argmax WW BW xW (by simp [forward_pass, fpStep, WW, BW, xW, vAdd, matVec, dot])⟩

/-- C10: the `predict_vector=True` mode of `forward_pass` returns exactly
`A[-1]` of the full mode (whose activation list is never empty), so `predict`
computed from either mode yields the same class index. -/
theorem c10_forward_modes (W : List Mat) (B : List Vec) (x : Vec) :
    (forward_pass W B x).2 ≠ [] ∧
    forward_pass_pv W B x = (forward_pass W B x).2.getLastD [] ∧
    argmax (forward_pass_pv W B x) = predict W B x := by
  refine ⟨?_, rfl, rfl⟩
  obtain ⟨⟨_, hl2⟩, _, _⟩ :=
    fp_inv W B (W.length - 1) 1 [[0.0]] [x] (forward_pass W B x) rfl rfl le_rfl rfl
  intro hnil
  rw [hnil] at hl2
  simp only [List.length_nil] at hl2
  omega

/-- C5 (amended): `train` on an empty example list fails, but with the
`ZeroDivisionError` arising from `cost/m` in the baseline `MSE` computation,
not with a dedicated `EmptyDatasetError`. -/
theorem c5_train_empty (net : DenseNetwork) (Y : List Vec) (alpha : ℝ)
    (epochs : ℕ) :
    DenseNetwork.train net [] Y alpha epochs = .error .zeroDivisionError := rfl

/-- C5 counterexample: at a concrete network and empty dataset, `train`
returns `ZeroDivisionError`, which is not the `EmptyDatasetError` the claim
names. -/
theorem c5_counterexample :
    DenseNetwork.train (DenseNetwork.mk [10] [[[0.0]]] [[0.0]] none) [] [] 0.046 4 =
      .error .zeroDivisionError ∧
    (Except.error NetError.zeroDivisionError : Except NetError DenseNetwork) ≠
      .error .emptyDatasetError := by
  constructor
  · rfl
  · simp

/-- C3 (amended): `mse` sums over the first ten coordinates only; on vectors
with at least ten entries it returns `0.5 * Σ_{j<10} (a_j - y_j)^2`
(which agrees with the claim exactly when both vectors have length 10). -/
theorem c3_mse_first_ten (a y : Vec) (ha : 10 ≤ a.length) (hy : 10 ≤ y.length) :
    mse a y = .ok (0.5 * ∑ j ∈ Finset.range 10, (a.getD j 0 - y.getD j 0) ^ 2) := by
  unfold mse
  rw [if_pos ⟨ha, hy⟩, list_range_sum]

/-- Witness for C3's amended statement at two concrete length-10 vectors. -/
theorem c3_mse_first_ten_witness :
    (10 ≤ (List.replicate 10 (1 : ℝ)).length ∧ 10 ≤ (List.replicate 10 (0 : ℝ)).length) ∧
    mse (List.replicate 10 (1 : ℝ)) (List.replicate 10 (0 : ℝ)) =
      .ok (0.5 * ∑ j ∈ Finset.range 10,
        ((List.replicate 10 (1 : ℝ)).getD j 0 - (List.replicate 10 (0 : ℝ)).getD j 0) ^ 2) :=
  ⟨⟨by decide, by decide⟩, c3_mse_first_ten _ _ (by decide) (by decide)⟩

/-- C3 counterexample: on two length-11 vectors the returned value is the sum
over the first ten coordinates (5), not the claimed sum over all eleven (5.5). -/
theorem c3_counterexample :
    mse (List.replicate 11 (1 : ℝ)) (List.replicate 11 (0 : ℝ)) ≠
      .ok (0.5 * ∑ j ∈ Finset.range 11,
        ((List.replicate 11 (1 : ℝ)).getD j 0 - (List.replicate 11 (0 : ℝ)).getD j 0) ^ 2) := by
  have h1 : mse (List.replicate 11 (1 : ℝ)) (List.replicate 11 (0 : ℝ)) = .ok 5 := by
    unfold mse
    rw [if_pos (by decide)]
    congr 1
    have hmap : (List.range 10).map
        (fun i => ((List.replicate 11 (1 : ℝ)).getD i 0 -
          (List.replicate 11 (0 : ℝ)).getD i 0) ^ 2) = (List.range 10).map (fun _ => (1 : ℝ)) := by
      apply List.map_congr_left
      intro i hi
      have hi10 : i < 10 := List.mem_range.mp hi
      rw [getD_replicate 11 i (1 : ℝ) 0 (by omega), getD_replicate 11 i (0 : ℝ) 0 (by omega)]
      norm_num
    rw [hmap, sum_map_const_range]
    norm_num
  have h2 : (0.5 : ℝ) * ∑ j ∈ Finset.range 11,
      ((List.replicate 11 (1 : ℝ)).getD j 0 - (List.replicate 11 (0 : ℝ)).getD j 0) ^ 2 = 5.5 := by
    have hsum : ∑ j ∈ Finset.range 11,
        ((List.replicate 11 (1 : ℝ)).getD j 0 - (List.replicate 11 (0 : ℝ)).getD j 0) ^ 2 =
        ∑ _j ∈ Finset.range 11, (1 : ℝ) := by
      apply Finset.sum_congr rfl
      intro j hj
      have hj11 : j < 11 := Finset.mem_range.mp hj
      rw [getD_replicate 11 j (1 : ℝ) 0 hj11, getD_replicate 11 j (0 : ℝ) 0 hj11]
      norm_num
    rw [hsum, Finset.sum_const, Finset.card_range]
    norm_num
  rw [h1, h2]
  simp only [ne_eq, Except.ok.injEq]
  norm_num

/-- C8 (amended): `mse(a, a)` is zero for vectors of at least ten entries, and
every value `mse` successfully returns is nonnegative; on shorter vectors
`mse(a, a)` raises instead of returning 0. -/
theorem c8_mse_nonneg (a y : Vec) (v : ℝ) (ha : 10 ≤ a.length) :
    mse a a = .ok 0 ∧ (mse a y = .ok v → 0 ≤ v) := by
  constructor
  · unfold mse
    rw [if_pos ⟨ha, ha⟩]
    have hz : ((List.range 10).map (fun i => (a.getD i 0 - a.getD i 0) ^ 2)).sum = 0 := by
      apply List.sum_eq_zero
      intro x hx
      obtain ⟨i, _, hix⟩ := List.mem_map.mp hx
      rw [← hix]
      simp
    rw [hz]
    norm_num
  · intro h
    unfold mse at h
    by_cases hc : 10 ≤ a.length ∧ 10 ≤ y.length
    · rw [if_pos hc] at h
      have hv := Except.ok.inj h
      rw [← hv]
      apply mul_nonneg (by norm_num)
      apply List.sum_nonneg
      intro x hx
      obtain ⟨i, _, hix⟩ := List.mem_map.mp hx
      rw [← hix]
      positivity
    · rw [if_neg hc] at h
      cases h

/-- Witness for C8's amended statement at a concrete length-10 vector. -/
theorem c8_mse_nonneg_witness :
    10 ≤ (List.replicate 10 (0 : ℝ)).length ∧
    (mse (List.replicate 10 (0 : ℝ)) (List.replicate 10 (0 : ℝ)) = .ok 0 ∧
     (mse (List.replicate 10 (0 : ℝ)) (List.replicate 10 (0 : ℝ)) = .ok 0 → 0 ≤ (0 : ℝ))) :=
  ⟨by decide, c8_mse_nonneg _ _ 0 (by decide)⟩

/-- C8 counterexample: on the length-1 vector `[0]` the call `mse(a, a)`
raises `IndexError` instead of returning 0. -/
theorem c8_counterexample :
    mse [(0 : ℝ)] [(0 : ℝ)] = .error .indexError ∧
    (Except.error NetError.indexError : Except NetError ℝ) ≠ .ok 0 := by
  constructor
  · unfold mse
    rw [if_neg (by decide)]
  · simp

/-! ### Shape of the initializer's output (C4) -/

lemma getD_cons_of_pos {α : Type _} (x : α) (l : List α) (i : ℕ) (d : α)
    (h : 1 ≤ i) : (x :: l).getD i d = l.getD (i - 1) d := by
  obtain ⟨j, rfl⟩ : ∃ j, i = j + 1 := ⟨i - 1, by omega⟩
  rfl

lemma initialize_weights_fst (wrand brand : ℕ → ℕ → ℕ → ℝ) (layers : List ℕ) :
    (initialize_weights wrand brand layers).1 =
      [[0.0]] :: (List.range' 1 (layers.length - 1)).map
        (fun i => mkMat (layers.getD i 0) (layers.getD (i - 1) 0)
          (fun r c => wrand i r c * Real.sqrt (2 / (layers.getD (i - 1) 0 : ℝ)))) := by
  show (List.range' 1 (layers.length - 1)).foldl
      (fun W i => W ++ [mkMat (layers.getD i 0) (layers.getD (i - 1) 0)
        (fun r c => wrand i r c * Real.sqrt (2 / (layers.getD (i - 1) 0 : ℝ)))])
      [[[0.0]]] = _
  rw [foldl_append_map]
  rfl

lemma initialize_weights_snd (wrand brand : ℕ → ℕ → ℕ → ℝ) (layers : List ℕ) :
    (initialize_weights wrand brand layers).2 =
      [0.0] :: (List.range' 1 (layers.length - 1)).map
        (fun i => (List.range (layers.getD i 0)).map
          (fun r => brand i r 0 * Real.sqrt (2 / (layers.getD (i - 1) 0 : ℝ)))) := by
  show (List.range' 1 (layers.length - 1)).foldl
      (fun B i => B ++ [(List.range (layers.getD i 0)).map
        (fun r => brand i r 0 * Real.sqrt (2 / (layers.getD (i - 1) 0 : ℝ)))])
      [[0.0]] = _
  rw [foldl_append_map]
  rfl

/-- C4 (amended): `initialize_weights` performs no validation and cannot fail;
for every topology of length at least 2 it returns `W`, `B` with one weight
matrix of shape `(layers[i], layers[i-1])` and one bias vector of `layers[i]`
entries per transition, after the index-0 placeholders. -/
theorem c4_initialize_no_failure (wrand brand : ℕ → ℕ → ℕ → ℝ) (layers : List ℕ)
    (h2 : 2 ≤ layers.length) :
    consistentShapes layers (initialize_weights wrand brand layers).1
      (initialize_weights wrand brand layers).2 := by
  rw [initialize_weights_fst, initialize_weights_snd]
  refine ⟨?_, ?_, ?_⟩
  · simp only [List.length_cons, List.length_map, List.length_range']
    omega
  · simp only [List.length_cons, List.length_map, List.length_range']
    omega
  · intro i hi h1
    have hmem : i - 1 < (List.range' 1 (layers.length - 1)).length := by
      simp only [List.length_range']
      omega
    have he : 1 + (i - 1) = i := by omega
    have hW : ([[0.0]] :: (List.range' 1 (layers.length - 1)).map
        (fun j => mkMat (layers.getD j 0) (layers.getD (j - 1) 0)
          (fun r c => wrand j r c * Real.sqrt (2 / (layers.getD (j - 1) 0 : ℝ))))).getD i [] =
        mkMat (layers.getD i 0) (layers.getD (i - 1) 0)
          (fun r c => wrand i r c * Real.sqrt (2 / (layers.getD (i - 1) 0 : ℝ))) := by
      rw [getD_cons_of_pos _ _ i [] h1,
        getD_map_of_lt _ _ (i - 1) [] 0 hmem,
        getD_range' (layers.length - 1) 1 (i - 1) (by omega), he]
    have hB : ([0.0] :: (List.range' 1 (layers.length - 1)).map
        (fun j => (List.range (layers.getD j 0)).map
          (fun r => brand j r 0 * Real.sqrt (2 / (layers.getD (j - 1) 0 : ℝ))))).getD i [] =
        (List.range (layers.getD i 0)).map
          (fun r => brand i r 0 * Real.sqrt (2 / (layers.getD (i - 1) 0 : ℝ))) := by
      rw [getD_cons_of_pos _ _ i [] h1,
        getD_map_of_lt _ _ (i - 1) [] 0 hmem,
        getD_range' (layers.length - 1) 1 (i - 1) (by omega), he]
    refine ⟨?_, ?_, ?_⟩
    · rw [hW]
      simp [mkMat]
    · rw [hW]
      intro row hrow
      simp only [mkMat, List.mem_map] at hrow
      obtain ⟨ri, _, hre⟩ := hrow
      rw [← hre]
      simp
    · rw [hB]
      simp

/-- Witness for C4's amended statement at the topology `[1, 2]`. -/
theorem c4_initialize_no_failure_witness :
    2 ≤ ([1, 2] : List ℕ).length ∧
    consistentShapes [1, 2]
      (initialize_weights (fun _ _ _ => 0) (fun _ _ _ => 0) [1, 2]).1
      (initialize_weights (fun _ _ _ => 0) (fun _ _ _ => 0) [1, 2]).2 :=
  ⟨by decide, c4_initialize_no_failure _ _ _ (by decide)⟩

/-- C4 counterexample: on the invalid topology `[]` (length 0 < 2) the
initializer does not fail with any error: it returns the bare placeholder
collections. -/
theorem c4_counterexample :
    initialize_weights (fun _ _ _ => 0) (fun _ _ _ => 0) ([] : List ℕ) =
      ([[[0.0]]], [[0.0]]) ∧ ([] : List ℕ).length < 2 := by
  constructor
  · rfl
  · decide

/-- C1: one stochastic gradient step: with `(Z, A)` the forward pass of `xi`,
`delta[L] = (A[L] - y) ⊙ d_sigmoid(Z[L])`; for `i = L-1, ..., 1`,
`delta[i] = (W[i+1]^T · delta[i+1]) ⊙ d_sigmoid(Z[i])`; and the step replaces
`W[i]` by `W[i] - α·delta[i]·A[i-1]^T` and `B[i]` by `B[i] - α·delta[i]`,
all deltas and activations being those captured before any weight change. -/
theorem c1_backprop_step (layers : List ℕ) (W : List Mat) (B : List Vec)
    (xi yi : Vec) (alpha : ℝ) (hcs : consistentShapes layers W B)
    (h2 : 2 ≤ layers.length) :
    sgd_deltas layers W (forward_pass W B xi).1 (forward_pass W B xi).2 yi
        (layers.length - 1) =
      vHad (vSub ((forward_pass W B xi).2.getD (layers.length - 1) []) yi)
        (((forward_pass W B xi).1.getD (layers.length - 1) []).map d_sigmoid) ∧
    (∀ i, 1 ≤ i → i < layers.length - 1 →
      sgd_deltas layers W (forward_pass W B xi).1 (forward_pass W B xi).2 yi i =
        vHad (matTvec (W.getD (i + 1) [])
            (sgd_deltas layers W (forward_pass W B xi).1 (forward_pass W B xi).2 yi (i + 1)))
          (((forward_pass W B xi).1.getD i []).map d_sigmoid)) ∧
    (∀ i, 1 ≤ i → i ≤ layers.length - 1 →
      (sgd_step layers W B xi yi alpha).1.getD i [] =
        matSub (W.getD i [])
          (matSmul alpha
            (outer (sgd_deltas layers W (forward_pass W B xi).1 (forward_pass W B xi).2 yi i)
              ((forward_pass W B xi).2.getD (i - 1) []))) ∧
      (sgd_step layers W B xi yi alpha).2.getD i [] =
        vSub (B.getD i [])
          (vSmul alpha
            (sgd_deltas layers W (forward_pass W B xi).1 (forward_pass W B xi).2 yi i))) := by
  obtain ⟨hWlen, hBlen, _⟩ := hcs
  set Z := (forward_pass W B xi).1 with hZ
  set A := (forward_pass W B xi).2 with hA
  set L := layers.length - 1 with hLdef
  have hL1 : 1 ≤ L := by omega
  have hinit : sgd_deltas layers W Z A yi =
      deltasDown W Z (L - 1)
        (fun j => if j = L then vHad (vSub (A.getD L []) yi) ((Z.getD L []).map d_sigmoid)
          else []) := rfl
  refine ⟨?_, ?_, ?_⟩
  · rw [hinit, deltasDown_above W Z (L - 1) _ L (by omega)]
    show (if L = L then vHad (vSub (A.getD L []) yi) ((Z.getD L []).map d_sigmoid) else []) = _
    rw [if_pos rfl]
  · intro i h1 hiL
    rw [hinit]
    exact deltasDown_rec W Z (L - 1) _ i h1 (by omega)
  · intro i h1 hiL
    have hstep : sgd_step layers W B xi yi alpha =
        (List.range' 1 L).foldl (updStep alpha (sgd_deltas layers W Z A yi) A) (W, B) := rfl
    obtain ⟨_, _, hin⟩ :=
      upd_inv alpha (sgd_deltas layers W Z A yi) A L 1 W B
        (sgd_step layers W B xi yi alpha) hstep
    obtain ⟨e1, e2⟩ := hin i h1 (by omega) (by omega) (by omega)
    rw [outer_vSmul] at e1
    exact ⟨e1, e2⟩

/-- Witness for C1 at the concrete zero network on topology `[1, 1]`. -/
theorem c1_backprop_step_witness :
    (consistentShapes layersW WW BW ∧ 2 ≤ layersW.length) ∧
    (sgd_deltas layersW WW (forward_pass WW BW xW).1 (forward_pass WW BW xW).2 yW
        (layersW.length - 1) =
      vHad (vSub ((forward_pass WW BW xW).2.getD (layersW.length - 1) []) yW)
        (((forward_pass WW BW xW).1.getD (layersW.length - 1) []).map d_sigmoid) ∧
    (∀ i, 1 ≤ i → i < layersW.length - 1 →
      sgd_deltas layersW WW (forward_pass WW BW xW).1 (forward_pass WW BW xW).2 yW i =
        vHad (matTvec (WW.getD (i + 1) [])
            (sgd_deltas layersW WW (forward_pass WW BW xW).1 (forward_pass WW BW xW).2 yW (i + 1)))
          (((forward_pass WW BW xW).1.getD i []).map d_sigmoid)) ∧
    (∀ i, 1 ≤ i → i ≤ layersW.length - 1 →
      (sgd_step layersW WW BW xW yW 1).1.getD i [] =
        matSub (WW.getD i [])
          (matSmul 1
            (outer (sgd_deltas layersW WW (forward_pass WW BW xW).1 (forward_pass WW BW xW).2 yW i)
              ((forward_pass WW BW xW).2.getD (i - 1) []))) ∧
      (sgd_step layersW WW BW xW yW 1).2.getD i [] =
        vSub (BW.getD i [])
          (vSmul 1
            (sgd_deltas layersW WW (forward_pass WW BW xW).1 (forward_pass WW BW xW).2 yW i)))) :=
  ⟨⟨by decide, by decide⟩, c1_backprop_step layersW WW BW xW yW 1 (by decide) (by decide)⟩

/-! ### Concrete training run (used by C6 and C9) -/

def xTen : Vec := List.replicate 10 0

def yTen : Vec := List.replicate 10 0

lemma mse_ten : mse xTen yTen = .ok 0 := by
  unfold mse
  rw [if_pos (by decide)]
  have hz : ((List.range 10).map (fun i => (xTen.getD i 0 - yTen.getD i 0) ^ 2)).sum = 0 := by
    apply List.sum_eq_zero
    intro x hx
    obtain ⟨i, _, hix⟩ := List.mem_map.mp hx
    rw [← hix]
    show (xTen.getD i 0 - yTen.getD i 0) ^ 2 = 0
    have hxy : xTen = yTen := rfl
    rw [hxy, sub_self]
    norm_num
  rw [hz]
  simp

lemma fpv_ten : forward_pass_pv [[[0.0]]] [[0.0]] xTen = xTen := rfl

lemma MSE_ten : MSE [[[0.0]]] [[0.0]] [xTen] [yTen] = .ok 0 := by
  have hloop : MSEloop [[[0.0]]] [[0.0]] (List.zip [xTen] [yTen]) 0 0 = .ok (0 + 0, 0 + 1) := by
    show (match mse (forward_pass_pv [[[0.0]]] [[0.0]] xTen) yTen with
      | Except.error e => Except.error e
      | Except.ok c => MSEloop [[[0.0]]] [[0.0]] [] (0 + c) (0 + 1)) = Except.ok (0 + 0, 0 + 1)
    rw [fpv_ten, mse_ten]
    rfl
  unfold MSE
  rw [hloop]
  show (if (0 + 1 : ℕ) = 0 then (Except.error NetError.zeroDivisionError : Except NetError ℝ)
    else .ok ((0 + 0 : ℝ) / ((0 + 1 : ℕ) : ℝ))) = .ok 0
  rw [if_neg (by omega)]
  norm_num

lemma train_ten (er : Option (List ℝ)) :
    DenseNetwork.train (DenseNetwork.mk [10] [[[0.0]]] [[0.0]] er) [xTen] [yTen] 0.046 0 =
      .ok (DenseNetwork.mk [10] [[[0.0]]] [[0.0]] (some [0])) := by
  show (match MSE [[[0.0]]] [[0.0]] [xTen] [yTen] with
    | Except.error e => Except.error e
    | Except.ok c0 =>
      match trainLoop [10] [xTen] [yTen] 0.046 0 ([[[0.0]]], [[0.0]], [c0]) with
      | Except.error e => Except.error e
      | Except.ok s => Except.ok (DenseNetwork.mk [10] s.1 s.2.1 (some s.2.2))) =
    Except.ok (DenseNetwork.mk [10] [[[0.0]]] [[0.0]] (some [0]))
  rw [MSE_ten]
  rfl

/-- C6 (amended): each successful `train` call stores a fresh `errors_` list
of exactly `epochs + 1` entries (the baseline dataset loss, then one entry per
epoch); any previously recorded history is overwritten, not extended, and
construction leaves `errors_` unset. -/
theorem c6_history_reset (net : DenseNetwork) (X Y : List Vec) (alpha : ℝ)
    (epochs : ℕ) (res : DenseNetwork)
    (h : DenseNetwork.train net X Y alpha epochs = .ok res) :
    res.errors_.map List.length = some (epochs + 1) := by
  unfold DenseNetwork.train at h
  rcases hm : MSE net.W net.B X Y with e | c0
  · rw [hm] at h
    simp at h
  · rw [hm] at h
    dsimp only at h
    rcases ht : trainLoop net.layers X Y alpha epochs (net.W, net.B, [c0]) with e | s
    · rw [ht] at h
      simp at h
    · rw [ht] at h
      have hlen := trainLoop_len net.layers X Y alpha epochs _ s ht
      simp only [List.length_cons, List.length_nil] at hlen
      have hres := Except.ok.inj h
      rw [← hres]
      simp only [Option.map_some']
      rw [hlen]
      exact congrArg some (by omega)

/-- Witness for C6's amended statement: a concrete successful training run
with `epochs = 0` stores a history of exactly one entry. -/
theorem c6_history_reset_witness :
    DenseNetwork.train (DenseNetwork.mk [10] [[[0.0]]] [[0.0]] none) [xTen] [yTen] 0.046 0 =
      .ok (DenseNetwork.mk [10] [[[0.0]]] [[0.0]] (some [0])) ∧
    (DenseNetwork.mk [10] [[[0.0]]] [[0.0]] (some [0])).errors_.map List.length =
      some (0 + 1) :=
  ⟨train_ten none, c6_history_reset _ _ _ _ _ _ (train_ten none)⟩

/-- C6 counterexample: two consecutive `train` calls with `epochs = 0` leave a
history of length 1, not the length 2 that an append-only history extended by
`epochs + 1` entries per call (starting empty at construction) would have. -/
theorem c6_counterexample :
    ((DenseNetwork.train (DenseNetwork.mk [10] [[[0.0]]] [[0.0]] none)
        [xTen] [yTen] 0.046 0).bind
      (fun n => DenseNetwork.train n [xTen] [yTen] 0.046 0)).map
        (fun n => n.errors_.map List.length) = .ok (some 1) ∧
    (Except.ok (some 1) : Except NetError (Option ℕ)) ≠ .ok (some 2) := by
  constructor
  · rw [train_ten none]
    show (DenseNetwork.train (DenseNetwork.mk [10] [[[0.0]]] [[0.0]] (some [0]))
        [xTen] [yTen] 0.046 0).map (fun n => n.errors_.map List.length) = .ok (some 1)
    rw [train_ten (some [0])]
    rfl
  · simp

/-- C9: the stored layer topology is never mutated: after every successful
`train` call the `layers` field is unchanged (and `predict` is a pure
function of the network returning only an index). -/
theorem c9_layers_immutable (net : DenseNetwork) (X Y : List Vec) (alpha : ℝ)
    (epochs : ℕ) (res : DenseNetwork)
    (h : DenseNetwork.train net X Y alpha epochs = .ok res) :
    res.layers = net.layers := by
  unfold DenseNetwork.train at h
  rcases hm : MSE net.W net.B X Y with e | c0
  · rw [hm] at h
    simp at h
  · rw [hm] at h
    dsimp only at h
    rcases ht : trainLoop net.layers X Y alpha epochs (net.W, net.B, [c0]) with e | s
    · rw [ht] at h
      simp at h
    · rw [ht] at h
      have hres := Except.ok.inj h
      rw [← hres]

/-- Witness for C9 at the concrete training run. -/
theorem c9_layers_immutable_witness :
    DenseNetwork.train (DenseNetwork.mk [10] [[[0.0]]] [[0.0]] none) [xTen] [yTen] 0.046 0 =
      .ok (DenseNetwork.mk [10] [[[0.0]]] [[0.0]] (some [0])) ∧
    (DenseNetwork.mk [10] [[[0.0]]] [[0.0]] (some [0])).layers =
      (DenseNetwork.mk [10] [[[0.0]]] [[0.0]] none).layers :=
  ⟨train_ten none, c9_layers_immutable _ _ _ _ _ _ (train_ten none)⟩

end DS
